import Mathlib

/-!
Shallow embedding of the markdown transformation pipeline of
`src/utils/markdown.ts` (hast-style tree rewriting passes), together with
proofs about the individual passes.

Conventions of the embedding:
* A hast/unist node is modelled by the inductive `Md.Node` below.  JS objects
  distinguish an absent `children` field from an empty array; in the trees the
  passes operate on (produced by the rehype parser) element nodes always carry
  a `children` array, so children are modelled as a plain `List Node`.
* A `properties` object is modelled as an association list without duplicate
  keys; attribute values are either a single string or a list of strings
  (`className`-style), mirroring `string[] | string | undefined` in the source.
* Property update `{...props, k: v}` keeps the insertion order of JS objects:
  an existing key keeps its position and gets the new value, a fresh key is
  appended.  `Md.setProp` implements exactly that.
-/

namespace Md

/-- Attribute value of a hast node: `string[] | string` in the source. -/
inductive AttrVal where
  | str : String → AttrVal
  | strs : List String → AttrVal
deriving DecidableEq, Repr

/-- A unist/hast node as used by `src/utils/markdown.ts`:
`element` (type `element`, with `tagName`, `properties`, `children`),
`text` (type `text`, with `value`), `root` (type `root`, with `children`),
and `mdx` (type `mdxJsxTextElement`, with `name` and `children`). -/
inductive Node where
  | element : String → List (String × AttrVal) → List Node → Node
  | text : String → Node
  | root : List Node → Node
  | mdx : String → List (String × AttrVal) → List Node → Node
deriving Repr

mutual

def nodeDecEq : (a b : Node) → Decidable (a = b)
  | .element t1 p1 c1, .element t2 p2 c2 =>
    if h1 : t1 = t2 then
      if h2 : p1 = p2 then
        match nodeListDecEq c1 c2 with
        | isTrue h3 => isTrue (by rw [h1, h2, h3])
        | isFalse h3 => isFalse (fun he => by cases he; exact h3 rfl)
      else isFalse (fun he => by cases he; exact h2 rfl)
    else isFalse (fun he => by cases he; exact h1 rfl)
  | .text v1, .text v2 =>
    if h : v1 = v2 then isTrue (by rw [h]) else isFalse (fun he => by cases he; exact h rfl)
  | .root c1, .root c2 =>
    match nodeListDecEq c1 c2 with
    | isTrue h3 => isTrue (by rw [h3])
    | isFalse h3 => isFalse (fun he => by cases he; exact h3 rfl)
  | .mdx n1 p1 c1, .mdx n2 p2 c2 =>
    if h1 : n1 = n2 then
      if h2 : p1 = p2 then
        match nodeListDecEq c1 c2 with
        | isTrue h3 => isTrue (by rw [h1, h2, h3])
        | isFalse h3 => isFalse (fun he => by cases he; exact h3 rfl)
      else isFalse (fun he => by cases he; exact h2 rfl)
    else isFalse (fun he => by cases he; exact h1 rfl)
  | .element _ _ _, .text _ => isFalse (fun h => Node.noConfusion h)
  | .element _ _ _, .root _ => isFalse (fun h => Node.noConfusion h)
  | .element _ _ _, .mdx _ _ _ => isFalse (fun h => Node.noConfusion h)
  | .text _, .element _ _ _ => isFalse (fun h => Node.noConfusion h)
  | .text _, .root _ => isFalse (fun h => Node.noConfusion h)
  | .text _, .mdx _ _ _ => isFalse (fun h => Node.noConfusion h)
  | .root _, .element _ _ _ => isFalse (fun h => Node.noConfusion h)
  | .root _, .text _ => isFalse (fun h => Node.noConfusion h)
  | .root _, .mdx _ _ _ => isFalse (fun h => Node.noConfusion h)
  | .mdx _ _ _, .element _ _ _ => isFalse (fun h => Node.noConfusion h)
  | .mdx _ _ _, .text _ => isFalse (fun h => Node.noConfusion h)
  | .mdx _ _ _, .root _ => isFalse (fun h => Node.noConfusion h)

def nodeListDecEq : (a b : List Node) → Decidable (a = b)
  | [], [] => isTrue rfl
  | [], _ :: _ => isFalse (fun h => List.noConfusion h)
  | _ :: _, [] => isFalse (fun h => List.noConfusion h)
  | a :: as, b :: bs =>
    match nodeDecEq a b with
    | isTrue h1 =>
      match nodeListDecEq as bs with
      | isTrue h2 => isTrue (by rw [h1, h2])
      | isFalse h2 => isFalse (fun he => by cases he; exact h2 rfl)
    | isFalse h1 => isFalse (fun he => by cases he; exact h1 rfl)

end

instance : DecidableEq Node := nodeDecEq

instance {e a : Type} [DecidableEq e] [DecidableEq a] : DecidableEq (Except e a) :=
  fun x y =>
    match x, y with
    | .error u, .error v =>
      if h : u = v then isTrue (by rw [h]) else isFalse (fun he => by cases he; exact h rfl)
    | .ok u, .ok v =>
      if h : u = v then isTrue (by rw [h]) else isFalse (fun he => by cases he; exact h rfl)
    | .error _, .ok _ => isFalse (fun h => Except.noConfusion h)
    | .ok _, .error _ => isFalse (fun h => Except.noConfusion h)

abbrev Props := List (String × AttrVal)

/-- `node.properties?.[k]` — lookup of a property. -/
def lookupProp : Props → String → Option AttrVal
  | [], _ => none
  | kv :: rest, k => if kv.1 == k then some kv.2 else lookupProp rest k

/-- `{...props, k: v}` — JS object spread update: an existing key keeps its
position and receives the new value, a fresh key is appended. -/
def setProp (p : Props) (k : String) (v : AttrVal) : Props :=
  if p.any (fun kv => kv.1 == k) then
    p.map (fun kv => if kv.1 == k then (k, v) else kv)
  else p ++ [(k, v)]

/-- `node.children`, with a missing children field read as the empty list. -/
def childrenOf : Node → List Node
  | .element _ _ cs => cs
  | .text _ => []
  | .root cs => cs
  | .mdx _ _ cs => cs

/-- `isPNode`: `node.type === 'element' && node.tagName === 'p'`. -/
def isPNode : Node → Bool
  | .element t _ _ => t == "p"
  | _ => false

/-- `isMdxPNode`: `node.type === 'mdxJsxTextElement' && node.name === 'p'`. -/
def isMdxPNode : Node → Bool
  | .mdx n _ _ => n == "p"
  | _ => false

/-- `isAnchorNode`: `node.type === 'element' && node.tagName === 'a'`. -/
def isAnchorNode : Node → Bool
  | .element t _ _ => t == "a"
  | _ => false

/-- `isPathNode`: `node.type === 'element' && node.tagName === 'path'`. -/
def isPathNode : Node → Bool
  | .element t _ _ => t == "path"
  | _ => false

/-- `isImgNode`: `node.type === 'element' && node.tagName === 'img'`. -/
def isImgNode : Node → Bool
  | .element t _ _ => t == "img"
  | _ => false

/-! ### `wrapLinksInSpans` (markdown.ts lines 124-145)

Pre-order rewrite: an anchor is replaced by a fresh
`span.inner-link` wrapper holding the anchor as sole child, and the
traversal does not descend into the returned wrapper (nor into the
anchor's own children). -/

mutual

def wrapLinksInSpans : Node → Node
  | .element t p cs =>
    if t == "a" then
      .element "span" [("class", .str "inner-link")] [.element t p cs]
    else .element t p (wrapLinksInSpansL cs)
  | .text v => .text v
  | .root cs => .root (wrapLinksInSpansL cs)
  | .mdx nm p cs => .mdx nm p (wrapLinksInSpansL cs)

def wrapLinksInSpansL : List Node → List Node
  | [] => []
  | c :: cs => wrapLinksInSpans c :: wrapLinksInSpansL cs

end

/-! ### `fixSvgPaths` (markdown.ts lines 283-302)

`node.properties.d.replace(/\s+/g, ' ')` on every `path` element; the
traversal returns a matched `path` without descending into its children.
`if (node.properties?.d)` is JS truthiness: among strings it is false
exactly for `""`.  The `d` attribute is typed `string` in the source. -/

/-- The ASCII part of the JS regex class `\s` (the inputs handled by the
pipeline contain no exotic unicode whitespace). -/
def jsWs (c : Char) : Bool :=
  c == ' ' || c == '\t' || c == '\n' || c == '\r' || c == '\x0b' || c == '\x0c'

/-- `str.split(sep)` for a one-character separator, JS semantics:
`"".split(';') = [""]` and adjacent separators yield empty segments. -/
def splitCharAux (sep : Char) : List Char → List Char → List (List Char)
  | [], acc => [acc.reverse]
  | c :: rest, acc =>
    if c == sep then acc.reverse :: splitCharAux sep rest []
    else splitCharAux sep rest (c :: acc)

def jsSplit (s : String) (sep : Char) : List String :=
  (splitCharAux sep s.toList []).map (fun l => ⟨l⟩)

/-- `str.trim()` (the pipeline's inputs only use ASCII whitespace). -/
def jsTrim (s : String) : String :=
  ⟨((s.toList.dropWhile jsWs).reverse.dropWhile jsWs).reverse⟩

/-- `str.startsWith(c)` for a one-character pattern. -/
def jsStartsWithChar (s : String) (c : Char) : Bool :=
  match s.toList with
  | c0 :: _ => c0 == c
  | [] => false

/-- `str.slice(1)`. -/
def jsDropOne (s : String) : String := ⟨s.toList.drop 1⟩

/-- `replace(/\s+/g, ' ')` over a character list; the flag records whether the
current maximal whitespace run has already emitted its single space. -/
def collapseWsAux : Bool → List Char → List Char
  | _, [] => []
  | inRun, c :: rest =>
    if jsWs c then
      if inRun then collapseWsAux true rest
      else ' ' :: collapseWsAux true rest
    else c :: collapseWsAux false rest

/-- `s.replace(/\s+/g, ' ')`. -/
def collapseWs (s : String) : String := ⟨collapseWsAux false s.toList⟩

mutual

def fixSvgPaths : Node → Node
  | .element t p cs =>
    if t == "path" then
      match lookupProp p "d" with
      | some (.str d) =>
        if d ≠ "" then .element t (setProp p "d" (.str (collapseWs d))) cs
        else .element t p cs
      | _ => .element t p cs
    else .element t p (fixSvgPathsL cs)
  | .text v => .text v
  | .root cs => .root (fixSvgPathsL cs)
  | .mdx nm p cs => .mdx nm p (fixSvgPathsL cs)

def fixSvgPathsL : List Node → List Node
  | [] => []
  | c :: cs => fixSvgPaths c :: fixSvgPathsL cs

end

/-! ### `collapseParagraphs` (markdown.ts lines 384-405)

A `p` whose single child is an html `p` or an mdx `p` is replaced by that
child (which is returned without further processing); any other `p` is
returned as-is (its children are not visited); other parents recurse. -/

mutual

def collapseParagraphs : Node → Node
  | .element t p cs =>
    if t == "p" then
      match cs with
      | [c] => if isPNode c || isMdxPNode c then c else .element t p [c]
      | _ => .element t p cs
    else .element t p (collapseParagraphsL cs)
  | .text v => .text v
  | .root cs => .root (collapseParagraphsL cs)
  | .mdx nm p cs => .mdx nm p (collapseParagraphsL cs)

def collapseParagraphsL : List Node → List Node
  | [] => []
  | c :: cs => collapseParagraphs c :: collapseParagraphsL cs

end

/-! ### `addLeadToFirstParagraph` (markdown.ts lines 323-366)

Pre-order search threading a `found` flag through a left-to-right reduce;
the first `p` gets `class: 'lead'` spread over its properties, all later
siblings are appended unchanged. -/

mutual

def leadRun : Node → Bool × Node
  | .element t p cs =>
    if t == "p" then (true, .element t (setProp p "class" (.str "lead")) cs)
    else
      let r := leadRunL cs
      (r.1, .element t p r.2)
  | .text v => (false, .text v)
  | .root cs =>
    let r := leadRunL cs
    (r.1, .root r.2)
  | .mdx nm p cs =>
    let r := leadRunL cs
    (r.1, .mdx nm p r.2)

def leadRunL : List Node → Bool × List Node
  | [] => (false, [])
  | c :: cs =>
    let r := leadRun c
    if r.1 then (true, r.2 :: cs)
    else
      let rs := leadRunL cs
      (rs.1, r.2 :: rs.2)

end

def addLeadToFirstParagraph (t : Node) : Node := (leadRun t).2

/-! ### `getOnlyFirstPara` (markdown.ts lines 368-382)

`run` is applied to the tree only: a `p` tree is returned itself, otherwise
the first `p` among the direct children is returned (`children.find(isPNode)`);
a childless non-parent yields `undefined`. -/

def getOnlyFirstPara (t : Node) : Option Node :=
  if isPNode t then some t
  else
    match t with
    | .element _ _ cs => cs.find? isPNode
    | .root cs => cs.find? isPNode
    | .mdx _ _ cs => cs.find? isPNode
    | .text _ => none

/-! ### `normalizeHeaders` (markdown.ts lines 407-435)

First visit: minimum over `parseInt(tagName.substr(1))` of every element
whose tag has length 2 and lowercases to an `h…` tag (`NaN` never updates the
minimum).  Second visit: every such element with a parseable level gets tag
`h${2 - min + level}`. -/

/-- Level of a heading-shaped tag: `tagName.length === 2 &&
tagName.toLowerCase().startsWith('h')`, then `parseInt(tagName.substr(1), 10)`
(`none` for `NaN`). -/
def headingLevel? (tag : String) : Option Int :=
  match tag.toList with
  | [c0, c1] =>
    if c0.toLower = 'h' ∧ c1.isDigit then some ((c1.toNat : Int) - 48) else none
  | _ => none

mutual

/-- The heading levels collected by `visit(tree, 'element', …)` in document
(pre-)order. -/
def headingLevels : Node → List Int
  | .element t _ cs =>
    (match headingLevel? t with | some l => [l] | none => []) ++ headingLevelsL cs
  | .text _ => []
  | .root cs => headingLevelsL cs
  | .mdx _ _ cs => headingLevelsL cs

def headingLevelsL : List Node → List Int
  | [] => []
  | c :: cs => headingLevels c ++ headingLevelsL cs

end

/-- One step of the `mostImportantHeading` accumulator:
`if (level < mostImportantHeading) { mostImportantHeading = level }`, with
`none` playing `Infinity`. -/
def minStep (acc : Option Int) (v : Int) : Option Int :=
  match acc with
  | none => some v
  | some m => if v < m then some v else some m

/-- The `mostImportantHeading` accumulator over the visited heading levels. -/
def minFold (l : List Int) : Option Int := l.foldl minStep none

mutual

def rewriteHeadings (m : Int) : Node → Node
  | .element t p cs =>
    match headingLevel? t with
    | some l => .element ("h" ++ toString (2 - m + l)) p (rewriteHeadingsL m cs)
    | none => .element t p (rewriteHeadingsL m cs)
  | .text v => .text v
  | .root cs => .root (rewriteHeadingsL m cs)
  | .mdx nm p cs => .mdx nm p (rewriteHeadingsL m cs)

def rewriteHeadingsL (m : Int) : List Node → List Node
  | [] => []
  | c :: cs => rewriteHeadings m c :: rewriteHeadingsL m cs

end

def normalizeHeaders (t : Node) : Node :=
  match minFold (headingLevels t) with
  | none => t
  | some m => rewriteHeadings m t

/-! ### `imageAttributes` (markdown.ts lines 304-321)

For every `img` whose string `title` starts with `#`:
`title.slice(1).split(';').map(p => p.split('=')).map(([key, val]) =>
[key.trim(), val.trim()]).filter(([key]) => key)` fed to `Object.fromEntries`
and spread over the properties.  A segment without `=` (in particular an
empty segment) destructures `val` to `undefined`, so `val.trim()` throws a
`TypeError`; the model propagates that as `Except.error`. -/

def parseTitleSegment (p : String) : Except String (String × String) :=
  match jsSplit p '=' with
  | key :: val :: _ => .ok (jsTrim key, jsTrim val)
  | _ => .error "TypeError: Cannot read properties of undefined (reading trim)"

def parseTitleSegments : List String → Except String (List (String × String))
  | [] => .ok []
  | p :: ps =>
    match parseTitleSegment p with
    | .error e => .error e
    | .ok kv =>
      match parseTitleSegments ps with
      | .error e => .error e
      | .ok kvs => .ok (kv :: kvs)

/-- `Object.fromEntries`: first-occurrence key order, last value per key wins. -/
def fromEntries (l : List (String × String)) : Props :=
  l.foldl (fun acc kv => setProp acc kv.1 (.str kv.2)) []

/-- `{...base, ...extra}`. -/
def mergeProps (base extra : Props) : Props :=
  extra.foldl (fun acc kv => setProp acc kv.1 kv.2) base

def imageTitleProps (title : String) : Except String Props :=
  match parseTitleSegments (jsSplit (jsDropOne title) ';') with
  | .error e => .error e
  | .ok segs => .ok (fromEntries (segs.filter (fun kv => kv.1 != "")))

mutual

def imageAttributes : Node → Except String Node
  | .element t p cs =>
    if t == "img" then
      match lookupProp p "title" with
      | some (.str title) =>
        if jsStartsWithChar title '#' then
          match imageTitleProps title with
          | .error e => .error e
          | .ok extra =>
            match imageAttributesL cs with
            | .error e => .error e
            | .ok cs' => .ok (.element t (mergeProps p extra) cs')
        else
          match imageAttributesL cs with
          | .error e => .error e
          | .ok cs' => .ok (.element t p cs')
      | _ =>
        match imageAttributesL cs with
        | .error e => .error e
        | .ok cs' => .ok (.element t p cs')
    else
      match imageAttributesL cs with
      | .error e => .error e
      | .ok cs' => .ok (.element t p cs')
  | .text v => .ok (.text v)
  | .root cs =>
    match imageAttributesL cs with
    | .error e => .error e
    | .ok cs' => .ok (.root cs')
  | .mdx nm p cs =>
    match imageAttributesL cs with
    | .error e => .error e
    | .ok cs' => .ok (.mdx nm p cs')

def imageAttributesL : List Node → Except String (List Node)
  | [] => .ok []
  | c :: cs =>
    match imageAttributes c with
    | .error e => .error e
    | .ok c' =>
      match imageAttributesL cs with
      | .error e => .error e
      | .ok cs' => .ok (c' :: cs')

end

/-! ### `replaceFreeLinkWithOEmbed` (markdown.ts lines 147-281)

The pass runs over the root's direct children only.  A child qualifies when
it is a `p` whose single child is an anchor with a truthy `href` whose first
child's `value` equals the `href`.  External collaborators are parameters of
the embedding:
* `lookup` models `getOEmbed` (the `updateCache` / `force` environment flags
  are absorbed into it); `none` models a null metadata response;
* `parseHtml` models `unified().use(RehypeParse).parse` wrapped in
  `tryCatch` (`Except.error` models a thrown parse error, which the source
  logs and treats as "no sub-content");
* `aspectOf` models the floating-point expression
  `Number(width)/Number(height) || 1.69` already rendered to the string that
  is interpolated into the `style` attribute. -/

/-- `EmbedMetadata` / the oEmbed response object.  `html` and `title` are JS
falsy exactly when `""` (the source tests them truthily). -/
structure OEmbed where
  otype : String
  html : String
  title : String
  thumbnail_url : String
  thumbnail_width : Int
  thumbnail_height : Int
deriving DecidableEq, Repr

/-- Qualification test of the pass, returning the href on success. -/
def freeLinkHref? (n : Node) : Option String :=
  match n with
  | .element "p" _ [.element "a" aprops acs] =>
    match lookupProp aprops "href" with
    | some (.str href) =>
      if href ≠ "" then
        match acs with
        | .text v :: _ => if v = href then some href else none
        | _ => none
      else none
    | _ => none
  | _ => none

mutual

/-- `findBody`: the children of the first-level `body` elements. -/
def findBody : Node → List Node
  | .element t _ cs => if t == "body" then cs else findBodyL cs
  | .text _ => []
  | .root cs => findBodyL cs
  | .mdx _ _ cs => findBodyL cs

def findBodyL : List Node → List Node
  | [] => []
  | c :: cs => findBody c ++ findBodyL cs

end

/-- Wrapping of an `iframe` into an aspect-ratio `div`. -/
def wrapIframe (aspectOf : Option AttrVal → Option AttrVal → String) (n : Node) : Node :=
  match n with
  | .element t p cs =>
    if t == "iframe" then
      .element "div"
        [("style", .str ("aspect-ratio: " ++
          aspectOf (lookupProp p "width") (lookupProp p "height") ++ ";"))]
        [.element t p cs]
    else .element t p cs
  | other => other

/-- The `figure` replacement (and its optional whole-card anchor). -/
def oEmbedCard (aspectOf : Option AttrVal → Option AttrVal → String)
    (href : String) (oe : OEmbed) (rest : Option Node) : Node :=
  let elements : Option (List Node) :=
    rest.map (fun r => (findBodyL (childrenOf r)).map (wrapIframe aspectOf))
  let cover : Node :=
    .element "img"
      [("src", .str oe.thumbnail_url),
       ("width", .str (toString oe.thumbnail_width)),
       ("height", .str (toString oe.thumbnail_height)),
       ("title", .str ("Otwórz " ++ oe.title))] []
  let shouldLinkWholeCard := oe.otype == "rich" && oe.html != ""
  let someElements := match elements with
    | some es => decide (0 < es.length)
    | none => false
  let figcaption : Node :=
    .element "figcaption" []
      ([.element "cite" []
          [if shouldLinkWholeCard then .text href
           else
             .element "a" [("href", .str href), ("title", .str oe.title)]
               [.text href]],
        .element "p" [("class", .str "title")]
          (if oe.title ≠ "" then [.text oe.title] else [])] ++
       (if someElements && oe.otype == "rich" then elements.getD [] else []))
  let replacement : Node :=
    .element "figure" [("class", .str "oembed")]
      ((if oe.otype == "rich" then [cover] else []) ++
       (if someElements && oe.otype != "rich" then elements.getD [] else []) ++
       [figcaption])
  if shouldLinkWholeCard then
    .element "a" [("href", .str href), ("title", .str oe.title)] [replacement]
  else replacement

/-- One child of the root through the pass. -/
def replaceFreeLinkChild (lookup : String → Option OEmbed)
    (parseHtml : String → Except String Node)
    (aspectOf : Option AttrVal → Option AttrVal → String) (n : Node) : Node :=
  match freeLinkHref? n with
  | none => n
  | some href =>
    match lookup href with
    | none => n
    | some oe =>
      let rest : Option Node :=
        if oe.otype == "video" || oe.otype == "rich" then
          match parseHtml oe.html with
          | .ok r => some r
          | .error _ => none
        else none
      oEmbedCard aspectOf href oe rest

mutual

def replaceFreeLinkWithOEmbed (lookup : String → Option OEmbed)
    (parseHtml : String → Except String Node)
    (aspectOf : Option AttrVal → Option AttrVal → String) : Node → Node
  | .root cs => .root (replaceFreeLinkL lookup parseHtml aspectOf cs)
  | n => replaceFreeLinkChild lookup parseHtml aspectOf n

def replaceFreeLinkL (lookup : String → Option OEmbed)
    (parseHtml : String → Except String Node)
    (aspectOf : Option AttrVal → Option AttrVal → String) : List Node → List Node
  | [] => []
  | c :: cs =>
    replaceFreeLinkWithOEmbed lookup parseHtml aspectOf c ::
      replaceFreeLinkL lookup parseHtml aspectOf cs

end

/-! ### Induction principle

A structural induction combinator for `Node` together with a predicate for
its child lists, used by every tree-level proof below. -/

section NodeInd

variable (P : Node → Prop) (Q : List Node → Prop)
variable (hel : ∀ t p cs, Q cs → P (.element t p cs))
variable (htx : ∀ v, P (.text v))
variable (hrt : ∀ cs, Q cs → P (.root cs))
variable (hmx : ∀ nm p cs, Q cs → P (.mdx nm p cs))
variable (hnil : Q [])
variable (hcons : ∀ c cs, P c → Q cs → Q (c :: cs))

mutual

def nodeInd : ∀ n, P n
  | .element t p cs => hel t p cs (nodeIndL cs)
  | .text v => htx v
  | .root cs => hrt cs (nodeIndL cs)
  | .mdx nm p cs => hmx nm p cs (nodeIndL cs)

def nodeIndL : ∀ l, Q l
  | [] => hnil
  | c :: cs => hcons c cs (nodeInd c) (nodeIndL cs)

end

end NodeInd

/-! ### Reference definitions and helper lemmas -/

mutual

/-- Modelled from the spec (§4.5/§4.6 ordering): the first paragraph node in
pre-order document traversal, direct child of the root or nested deeper —
the node that lead-marking marks. -/
def firstParaPre : Node → Option Node
  | .element t p cs =>
    if t == "p" then some (.element t p cs) else firstParaPreL cs
  | .text _ => none
  | .root cs => firstParaPreL cs
  | .mdx _ _ cs => firstParaPreL cs

def firstParaPreL : List Node → Option Node
  | [] => none
  | c :: cs =>
    match firstParaPre c with
    | some r => some r
    | none => firstParaPreL cs

end

theorem find?_eq_some_split {α : Type} (q : α → Bool) :
    ∀ (l : List α) (a : α),
      l.find? q = some a ↔
        q a = true ∧ ∃ pre suf, l = pre ++ a :: suf ∧ ∀ c ∈ pre, q c = false := by
  intro l
  induction l with
  | nil =>
    intro a
    simp only [List.find?_nil]
    constructor
    · intro h
      exact absurd h (by simp)
    · rintro ⟨_, pre, suf, h, _⟩
      exact absurd h (by simp)
  | cons x xs ih =>
    intro a
    by_cases hx : q x = true
    · rw [List.find?_cons_of_pos _ hx]
      constructor
      · intro h
        obtain rfl : x = a := by injection h
        exact ⟨hx, [], xs, rfl, by simp⟩
      · rintro ⟨ha, pre, suf, hsplit, hpre⟩
        cases pre with
        | nil =>
          simp only [List.nil_append, List.cons.injEq] at hsplit
          rw [hsplit.1]
        | cons y ys =>
          simp only [List.cons_append, List.cons.injEq] at hsplit
          have hy : q y = false := hpre y (by simp)
          rw [hsplit.1, hy] at hx
          exact absurd hx (by simp)
    · have hxf : q x = false := by
        cases h : q x with
        | false => rfl
        | true => exact absurd h hx
      rw [List.find?_cons_of_neg _ (by simp [hxf])]
      rw [ih a]
      constructor
      · rintro ⟨ha, pre, suf, hsplit, hpre⟩
        refine ⟨ha, x :: pre, suf, by rw [hsplit]; rfl, ?_⟩
        intro c hc
        rcases List.mem_cons.mp hc with hcx | hcp
        · rw [hcx]; exact hxf
        · exact hpre c hcp
      · rintro ⟨ha, pre, suf, hsplit, hpre⟩
        cases pre with
        | nil =>
          simp only [List.nil_append, List.cons.injEq] at hsplit
          rw [hsplit.1] at hxf
          rw [ha] at hxf
          exact absurd hxf (by simp)
        | cons y ys =>
          simp only [List.cons_append, List.cons.injEq] at hsplit
          exact ⟨ha, ys, suf, hsplit.2, fun c hc => hpre c (by simp [hc])⟩

theorem getOnlyFirstPara_eq (t : Node) :
    getOnlyFirstPara t = if isPNode t then some t else (childrenOf t).find? isPNode := by
  cases t <;> simp [getOnlyFirstPara, childrenOf]

/-! ### Claim theorems -/

/-- C9: heading normalization imposes no upper cap on heading levels — on a
tree whose minimum heading level is 1 and which also contains an `h6`, the
pass rewrites that element's tag to the non-standard tag `h7`. -/
theorem normalizeHeaders_no_upper_cap :
    normalizeHeaders (.root [.element "h1" [] [.text "a"], .element "h6" [] [.text "b"]]) =
      .root [.element "h2" [] [.text "a"], .element "h7" [] [.text "b"]] := by decide

/-- C2: on an image whose title is the exact literal `"#a=1;;b=2"` the pass
does NOT skip the empty segment: destructuring the empty segment gives
`val = undefined` and `val.trim()` throws a `TypeError` that aborts the pass
(first conjunct), while the neighbouring well-formed title `"#a=1;b=2"` shows
the intended merge of `{a: "1", b: "2"}` (second conjunct). -/
theorem imageAttributes_empty_segment_throws :
    imageAttributes (.root [.element "img" [("title", .str "#a=1;;b=2")] []]) =
      .error "TypeError: Cannot read properties of undefined (reading trim)" ∧
    imageAttributes (.root [.element "img" [("title", .str "#a=1;b=2")] []]) =
      .ok (.root [.element "img"
        [("title", .str "#a=1;b=2"), ("a", .str "1"), ("b", .str "2")] []]) :=
  ⟨by decide, by decide⟩

/-- C4 counterexample: on `root[div[p "a"], p "b"]` the claim predicts the
pre-order-first paragraph `p "a"` (the node lead-marking marks), but
`getOnlyFirstPara` only inspects the root's direct children and returns
`p "b"`. -/
theorem getOnlyFirstPara_counterexample :
    getOnlyFirstPara
        (.root [.element "div" [] [.element "p" [] [.text "a"]],
                .element "p" [] [.text "b"]]) ≠
      firstParaPre
        (.root [.element "div" [] [.element "p" [] [.text "a"]],
                .element "p" [] [.text "b"]]) := by decide

/-- C4 (amended): `getOnlyFirstPara` returns the tree itself when the tree is
a paragraph node, and otherwise the first paragraph among the tree's DIRECT
children only; a paragraph nested deeper is never found, and with no such
paragraph it returns nothing. -/
theorem getOnlyFirstPara_direct_only (t n : Node) :
    getOnlyFirstPara t = some n ↔
      (isPNode t = true ∧ n = t) ∨
      (isPNode t = false ∧ isPNode n = true ∧
        ∃ pre suf, childrenOf t = pre ++ n :: suf ∧ ∀ c ∈ pre, isPNode c = false) := by
  rw [getOnlyFirstPara_eq]
  by_cases h : isPNode t = true
  · constructor
    · intro he
      rw [if_pos h] at he
      injection he with he
      exact Or.inl ⟨h, he.symm⟩
    · rintro (⟨_, rfl⟩ | ⟨hf, _⟩)
      · rw [if_pos h]
      · rw [hf] at h
        exact absurd h (by simp)
  · have hb : isPNode t = false := by revert h; cases isPNode t <;> simp
    rw [if_neg h]
    rw [find?_eq_some_split]
    simp [hb]

theorem replaceFreeLinkL_length (lookup : String → Option OEmbed)
    (parseHtml : String → Except String Node)
    (aspectOf : Option AttrVal → Option AttrVal → String) :
    ∀ l : List Node, (replaceFreeLinkL lookup parseHtml aspectOf l).length = l.length := by
  intro l
  induction l with
  | nil => rfl
  | cons c cs ih => simp [replaceFreeLinkL, ih]

theorem replaceFreeLinkL_get? (lookup : String → Option OEmbed)
    (parseHtml : String → Except String Node)
    (aspectOf : Option AttrVal → Option AttrVal → String) :
    ∀ (l : List Node) (i : Nat),
      (replaceFreeLinkL lookup parseHtml aspectOf l).get? i =
        (l.get? i).map (replaceFreeLinkWithOEmbed lookup parseHtml aspectOf) := by
  intro l
  induction l with
  | nil => intro i; simp [replaceFreeLinkL]
  | cons c cs ih =>
    intro i
    cases i with
    | zero => simp [replaceFreeLinkL]
    | succ j => simpa [replaceFreeLinkL] using ih j

theorem replaceFreeLink_child_null (lookup : String → Option OEmbed)
    (parseHtml : String → Except String Node)
    (aspectOf : Option AttrVal → Option AttrVal → String)
    (c : Node) (href : String)
    (hq : freeLinkHref? c = some href) (hnull : lookup href = none) :
    replaceFreeLinkWithOEmbed lookup parseHtml aspectOf c = c := by
  cases c with
  | root cs => exact absurd hq (by simp [freeLinkHref?])
  | element tg p cs => simp [replaceFreeLinkWithOEmbed, replaceFreeLinkChild, hq, hnull]
  | text v => simp [replaceFreeLinkWithOEmbed, replaceFreeLinkChild, hq, hnull]
  | mdx nm p cs => simp [replaceFreeLinkWithOEmbed, replaceFreeLinkChild, hq, hnull]

/-- C8: on a qualifying paragraph (a direct child of the root whose sole
child is an anchor whose href equals its visible text) for which the
metadata lookup returns nothing, the pass returns the original paragraph
unchanged in its position (and no error is raised: the pass stays total). -/
theorem replaceFreeLink_null_metadata (lookup : String → Option OEmbed)
    (parseHtml : String → Except String Node)
    (aspectOf : Option AttrVal → Option AttrVal → String)
    (cs : List Node) (i : Nat) (c : Node) (href : String)
    (hc : cs.get? i = some c)
    (hq : freeLinkHref? c = some href)
    (hnull : lookup href = none) :
    ∃ cs', replaceFreeLinkWithOEmbed lookup parseHtml aspectOf (.root cs) = .root cs' ∧
      cs'.length = cs.length ∧ cs'.get? i = some c := by
  refine ⟨replaceFreeLinkL lookup parseHtml aspectOf cs, by simp [replaceFreeLinkWithOEmbed], ?_, ?_⟩
  · exact replaceFreeLinkL_length lookup parseHtml aspectOf cs
  · rw [replaceFreeLinkL_get?, hc]
    simp [replaceFreeLink_child_null lookup parseHtml aspectOf c href hq hnull]

/-- A "collapse redex" head: the child shapes accepted by the single-child
branch of `collapseParagraphs`. -/
def isPLike (n : Node) : Bool := isPNode n || isMdxPNode n

mutual

/-- No html paragraph anywhere in the tree has a sole paragraph-like child
(i.e. the tree contains no collapse redex at all). -/
def pRedexFree : Node → Bool
  | .element t _ cs =>
    (if t == "p" then
      match cs with
      | [c] => !(isPLike c)
      | _ => true
     else true) && pRedexFreeL cs
  | .text _ => true
  | .root cs => pRedexFreeL cs
  | .mdx _ _ cs => pRedexFreeL cs

def pRedexFreeL : List Node → Bool
  | [] => true
  | c :: cs => pRedexFree c && pRedexFreeL cs

end

mutual

/-- Every collapsible paragraph's sole paragraph-like child is itself free of
collapse redexes (so one application of the pass reaches a fixed point). -/
def noDoubleNest : Node → Bool
  | .element t _ cs =>
    (if t == "p" then
      match cs with
      | [c] => if isPLike c then pRedexFree c else true
      | _ => true
     else true) && noDoubleNestL cs
  | .text _ => true
  | .root cs => noDoubleNestL cs
  | .mdx _ _ cs => noDoubleNestL cs

def noDoubleNestL : List Node → Bool
  | [] => true
  | c :: cs => noDoubleNest c && noDoubleNestL cs

end

theorem collapseParagraphs_fix (n : Node) :
    pRedexFree n = true → collapseParagraphs n = n := by
  refine nodeInd (fun n => pRedexFree n = true → collapseParagraphs n = n)
    (fun l => pRedexFreeL l = true → collapseParagraphsL l = l)
    ?_ ?_ ?_ ?_ ?_ ?_ n
  · intro t p cs ihl h
    by_cases ht : (t == "p") = true
    · rcases cs with _ | ⟨c, _ | ⟨c2, cs'⟩⟩
      · simp [collapseParagraphs, ht]
      · simp only [pRedexFree, ht, if_true, Bool.and_eq_true] at h
        have hcf : isPLike c = false := by
          have h1 := h.1
          revert h1
          cases isPLike c <;> simp
        simp only [isPLike, Bool.or_eq_false_iff] at hcf
        simp [collapseParagraphs, ht, hcf.1, hcf.2]
      · simp [collapseParagraphs, ht]
    · simp only [pRedexFree, ht, if_false, Bool.true_and, Bool.and_eq_true] at h
      simp [collapseParagraphs, ht, ihl h.2]
  · intro v _
    rfl
  · intro cs ihl h
    simp only [pRedexFree] at h
    simp [collapseParagraphs, ihl h]
  · intro nm p cs ihl h
    simp only [pRedexFree] at h
    simp [collapseParagraphs, ihl h]
  · intro _
    rfl
  · intro c cs ihc ihl h
    simp only [pRedexFreeL, Bool.and_eq_true] at h
    simp [collapseParagraphsL, ihc h.1, ihl h.2]

/-- C3 counterexample: on a triply nested sole-child paragraph chain the pass
unwraps one level per run, so collapsing twice differs from collapsing once. -/
theorem collapseParagraphs_not_idempotent :
    collapseParagraphs (collapseParagraphs
        (.root [.element "p" [] [.element "p" [] [.element "p" [] [.text "x"]]]])) ≠
      collapseParagraphs
        (.root [.element "p" [] [.element "p" [] [.element "p" [] [.text "x"]]]]) := by
  decide

/-- C3 (amended): paragraph collapsing unwraps one level of redundant nesting
per application, so it is not idempotent in general; it is idempotent on
every tree in which the sole paragraph-like child of each collapsible
paragraph contains no collapsible paragraph anywhere within it. -/
theorem collapseParagraphs_idempotent_amended (t : Node) (h : noDoubleNest t = true) :
    collapseParagraphs (collapseParagraphs t) = collapseParagraphs t := by
  revert h
  refine nodeInd
    (fun n => noDoubleNest n = true →
      collapseParagraphs (collapseParagraphs n) = collapseParagraphs n)
    (fun l => noDoubleNestL l = true →
      collapseParagraphsL (collapseParagraphsL l) = collapseParagraphsL l)
    ?_ ?_ ?_ ?_ ?_ ?_ t
  · intro tg p cs ihl h
    by_cases ht : (tg == "p") = true
    · rcases cs with _ | ⟨c, _ | ⟨c2, cs'⟩⟩
      · simp [collapseParagraphs, ht]
      · by_cases hc : isPLike c = true
        · simp only [noDoubleNest, ht, if_true, hc, Bool.and_eq_true] at h
          have h1 : collapseParagraphs (.element tg p [c]) = c := by
            simp [collapseParagraphs, ht, isPLike] at hc ⊢
            rcases hc with hc | hc <;> simp [hc]
          rw [h1]
          exact collapseParagraphs_fix c h.1
        · have hcf : isPLike c = false := by revert hc; cases isPLike c <;> simp
          have h1 : collapseParagraphs (.element tg p [c]) = .element tg p [c] := by
            simp [collapseParagraphs, ht, isPLike] at hcf ⊢
            simp [hcf.1, hcf.2]
          rw [h1, h1]
      · simp [collapseParagraphs, ht]
    · simp only [noDoubleNest, ht, if_false, Bool.true_and, Bool.and_eq_true] at h
      simp [collapseParagraphs, ht, ihl h.2]
  · intro v _
    rfl
  · intro cs ihl h
    simp only [noDoubleNest] at h
    simp [collapseParagraphs, ihl h]
  · intro nm p cs ihl h
    simp only [noDoubleNest] at h
    simp [collapseParagraphs, ihl h]
  · intro _
    rfl
  · intro c cs ihc ihl h
    simp only [noDoubleNestL, Bool.and_eq_true] at h
    simp [collapseParagraphsL, ihc h.1, ihl h.2]

theorem collapseParagraphs_idempotent_amended_witness :
    noDoubleNest (.root [.element "p" [] [.element "p" [] [.text "x"]]]) = true ∧
    collapseParagraphs (collapseParagraphs
        (.root [.element "p" [] [.element "p" [] [.text "x"]]])) =
      collapseParagraphs (.root [.element "p" [] [.element "p" [] [.text "x"]]]) :=
  ⟨by decide, collapseParagraphs_idempotent_amended _ (by decide)⟩

/-! ### Properties of `setProp` / `lookupProp` -/

theorem lookupProp_append_last (k : String) (v : AttrVal) :
    ∀ p : Props, (∀ kv ∈ p, (kv.1 == k) = false) →
      lookupProp (p ++ [(k, v)]) k = some v := by
  intro p
  induction p with
  | nil => intro _; simp [lookupProp]
  | cons kv rest ih =>
    intro h
    have hk : (kv.1 == k) = false := h kv (by simp)
    simp only [List.cons_append, lookupProp, hk, if_neg (by simp : ¬ (false = true))]
    exact ih (fun x hx => h x (by simp [hx]))

theorem lookupProp_map_set (k : String) (v : AttrVal) :
    ∀ p : Props, p.any (fun kv => kv.1 == k) = true →
      lookupProp (p.map (fun kv => if kv.1 == k then (k, v) else kv)) k = some v := by
  intro p
  induction p with
  | nil => intro h; exact absurd h (by simp)
  | cons kv rest ih =>
    intro h
    by_cases hk : (kv.1 == k) = true
    · simp [lookupProp, hk]
    · have hkf : (kv.1 == k) = false := by revert hk; cases kv.1 == k <;> simp
      simp only [List.any_cons, hkf, Bool.false_or] at h
      simp only [List.map_cons, hkf, if_neg (by simp : ¬ (false = true)), lookupProp]
      exact ih h

theorem lookupProp_setProp_self (p : Props) (k : String) (v : AttrVal) :
    lookupProp (setProp p k v) k = some v := by
  unfold setProp
  by_cases h : p.any (fun kv => kv.1 == k) = true
  · rw [if_pos h]
    exact lookupProp_map_set k v p h
  · rw [if_neg h]
    refine lookupProp_append_last k v p ?_
    intro kv hkv
    cases hx : kv.1 == k with
    | false => rfl
    | true => exact absurd (List.any_eq_true.mpr ⟨kv, hkv, hx⟩) h

theorem map_set_of_no_key (k : String) (v : AttrVal) :
    ∀ p : Props, (∀ kv ∈ p, (kv.1 == k) = false) →
      p.map (fun kv => if kv.1 == k then (k, v) else kv) = p := by
  intro p
  induction p with
  | nil => intro _; rfl
  | cons kv rest ih =>
    intro h
    have hk : (kv.1 == k) = false := h kv (by simp)
    simp only [List.map_cons, hk, if_neg (by simp : ¬ (false = true))]
    rw [ih (fun x hx => h x (by simp [hx]))]

theorem any_map_set (k : String) (v : AttrVal) :
    ∀ p : Props, p.any (fun kv => kv.1 == k) = true →
      (p.map (fun kv => if kv.1 == k then (k, v) else kv)).any
        (fun kv => kv.1 == k) = true := by
  intro p
  induction p with
  | nil => intro h; exact absurd h (by simp)
  | cons kv rest ih =>
    intro h
    by_cases hk : (kv.1 == k) = true
    · simp only [List.map_cons, if_pos hk, List.any_cons]
      simp
    · have hkf : (kv.1 == k) = false := by revert hk; cases kv.1 == k <;> simp
      simp only [List.any_cons, hkf, Bool.false_or] at h
      simp only [List.map_cons, hkf, if_neg (by simp : ¬ (false = true)), List.any_cons]
      rw [ih h]
      simp

theorem map_set_map_set (k : String) (v v' : AttrVal) :
    ∀ p : Props,
      (p.map (fun kv => if kv.1 == k then (k, v) else kv)).map
          (fun kv => if kv.1 == k then (k, v') else kv) =
        p.map (fun kv => if kv.1 == k then (k, v') else kv) := by
  intro p
  induction p with
  | nil => rfl
  | cons kv rest ih =>
    by_cases hk : (kv.1 == k) = true
    · simp only [List.map_cons, hk, if_pos hk]
      rw [ih]
      simp
    · have hkf : (kv.1 == k) = false := by revert hk; cases kv.1 == k <;> simp
      simp only [List.map_cons, hkf, if_neg (by simp : ¬ (false = true))]
      rw [ih]

theorem setProp_setProp_self (p : Props) (k : String) (v v' : AttrVal) :
    setProp (setProp p k v) k v' = setProp p k v' := by
  by_cases h : p.any (fun kv => kv.1 == k) = true
  · unfold setProp
    rw [if_pos h, if_pos h, if_pos (any_map_set k v p h)]
    exact map_set_map_set k v v' p
  · have hno : ∀ kv ∈ p, (kv.1 == k) = false := by
      intro kv hkv
      cases hx : kv.1 == k with
      | false => rfl
      | true => exact absurd (List.any_eq_true.mpr ⟨kv, hkv, hx⟩) h
    unfold setProp
    rw [if_neg h, if_neg h]
    rw [if_pos (by simp : ((p ++ [(k, v)]).any (fun kv => kv.1 == k)) = true)]
    rw [List.map_append, map_set_of_no_key k v' p hno]
    simp

/-! ### C7: `fixSvgPaths` -/

theorem collapseWsAux_false_space (l : List Char) :
    collapseWsAux false (' ' :: l) = ' ' :: collapseWsAux true l := rfl

theorem collapseWsAux_idem :
    ∀ (l : List Char) (b : Bool),
      collapseWsAux b (collapseWsAux b l) = collapseWsAux b l := by
  intro l
  induction l with
  | nil => intro b; rfl
  | cons c rest ih =>
    intro b
    by_cases hc : jsWs c = true
    · cases b with
      | true =>
        have h1 : collapseWsAux true (c :: rest) = collapseWsAux true rest := by
          simp [collapseWsAux, hc]
        rw [h1, ih true]
      | false =>
        have h1 : collapseWsAux false (c :: rest) = ' ' :: collapseWsAux true rest := by
          simp [collapseWsAux, hc]
        rw [h1, collapseWsAux_false_space, ih true]
    · have hcf : jsWs c = false := by revert hc; cases jsWs c <;> simp
      have h1 : ∀ (b' : Bool) (l : List Char),
          collapseWsAux b' (c :: l) = c :: collapseWsAux false l := by
        intro b' l
        simp [collapseWsAux, hcf]
      rw [h1 b, h1 b, ih false]

theorem collapseWs_idem (s : String) : collapseWs (collapseWs s) = collapseWs s := by
  unfold collapseWs
  have h : (String.mk (collapseWsAux false s.toList)).toList =
      collapseWsAux false s.toList := rfl
  rw [h, collapseWsAux_idem]

theorem collapseWsAux_ne_nil (c : Char) (rest : List Char) :
    collapseWsAux false (c :: rest) ≠ [] := by
  by_cases hc : jsWs c = true
  · simp [collapseWsAux, hc]
  · have hcf : jsWs c = false := by revert hc; cases jsWs c <;> simp
    simp [collapseWsAux, hcf]

theorem collapseWs_ne_empty (s : String) (h : s ≠ "") : collapseWs s ≠ "" := by
  rcases s with ⟨l⟩
  cases l with
  | nil => exact absurd rfl h
  | cons c rest =>
    intro he
    have : collapseWsAux false (c :: rest) = [] := by
      have := congrArg String.toList he
      exact this
    exact collapseWsAux_ne_nil c rest this

/-- `headNotWs l`: the first character, if any, is not whitespace. -/
def headNotWs : List Char → Bool
  | [] => true
  | c :: _ => !(jsWs c)

/-- `wsNormal l`: every whitespace character is a single space that is not
followed by another whitespace character — i.e. all whitespace runs are
already collapsed to exactly one space. -/
def wsNormal : List Char → Bool
  | [] => true
  | c :: rest => (if jsWs c then c == ' ' && headNotWs rest else true) && wsNormal rest

theorem headNotWs_collapseWsAux_true :
    ∀ l : List Char, headNotWs (collapseWsAux true l) = true := by
  intro l
  induction l with
  | nil => rfl
  | cons c rest ih =>
    by_cases hc : jsWs c = true
    · simp only [collapseWsAux, hc, if_pos rfl]
      exact ih
    · have hcf : jsWs c = false := by revert hc; cases jsWs c <;> simp
      simp [collapseWsAux, headNotWs, hcf]

theorem wsNormal_collapseWsAux :
    ∀ (l : List Char) (b : Bool), wsNormal (collapseWsAux b l) = true := by
  intro l
  induction l with
  | nil => intro b; rfl
  | cons c rest ih =>
    intro b
    by_cases hc : jsWs c = true
    · cases b with
      | true =>
        have h1 : collapseWsAux true (c :: rest) = collapseWsAux true rest := by
          simp [collapseWsAux, hc]
        rw [h1]
        exact ih true
      | false =>
        have h1 : collapseWsAux false (c :: rest) = ' ' :: collapseWsAux true rest := by
          simp [collapseWsAux, hc]
        rw [h1]
        simp [wsNormal, jsWs, headNotWs_collapseWsAux_true rest, ih true]
    · have hcf : jsWs c = false := by revert hc; cases jsWs c <;> simp
      have h1 : collapseWsAux b (c :: rest) = c :: collapseWsAux false rest := by
        simp [collapseWsAux, hcf]
      rw [h1]
      simp [wsNormal, hcf, ih false]

mutual

/-- No `path` element anywhere in the tree. -/
def pathFree : Node → Bool
  | .element t _ cs => (t != "path") && pathFreeL cs
  | .text _ => true
  | .root cs => pathFreeL cs
  | .mdx _ _ cs => pathFreeL cs

def pathFreeL : List Node → Bool
  | [] => true
  | c :: cs => pathFree c && pathFreeL cs

end

mutual

/-- No `path` element is nested below another `path` element (the traversal
of `fixSvgPaths` never descends into a matched `path`). -/
def noNestedPaths : Node → Bool
  | .element t _ cs => if t == "path" then pathFreeL cs else noNestedPathsL cs
  | .text _ => true
  | .root cs => noNestedPathsL cs
  | .mdx _ _ cs => noNestedPathsL cs

def noNestedPathsL : List Node → Bool
  | [] => true
  | c :: cs => noNestedPaths c && noNestedPathsL cs

end

mutual

/-- Every `path` element's string `d` attribute has all whitespace runs
collapsed to exactly one space. -/
def allPathsCollapsed : Node → Bool
  | .element t p cs =>
    (if t == "path" then
      match lookupProp p "d" with
      | some (.str d) => wsNormal d.toList
      | _ => true
     else true) && allPathsCollapsedL cs
  | .text _ => true
  | .root cs => allPathsCollapsedL cs
  | .mdx _ _ cs => allPathsCollapsedL cs

def allPathsCollapsedL : List Node → Bool
  | [] => true
  | c :: cs => allPathsCollapsed c && allPathsCollapsedL cs

end

theorem allPathsCollapsed_of_pathFree (n : Node) :
    pathFree n = true → allPathsCollapsed n = true := by
  refine nodeInd (fun n => pathFree n = true → allPathsCollapsed n = true)
    (fun l => pathFreeL l = true → allPathsCollapsedL l = true)
    ?_ ?_ ?_ ?_ ?_ ?_ n
  · intro t p cs ihl h
    simp only [pathFree, Bool.and_eq_true] at h
    have ht : (t == "path") = false := by
      have h1 := h.1
      rw [bne] at h1
      revert h1
      cases t == "path" <;> simp
    simp [allPathsCollapsed, ht, ihl h.2]
  · intro v _
    rfl
  · intro cs ihl h
    simp only [pathFree] at h
    simp [allPathsCollapsed, ihl h]
  · intro nm p cs ihl h
    simp only [pathFree] at h
    simp [allPathsCollapsed, ihl h]
  · intro _
    rfl
  · intro c cs ihc ihl h
    simp only [pathFreeL, Bool.and_eq_true] at h
    simp [allPathsCollapsedL, ihc h.1, ihl h.2]

theorem allPathsCollapsedL_of_pathFreeL (l : List Node) :
    pathFreeL l = true → allPathsCollapsedL l = true := by
  induction l with
  | nil => intro _; rfl
  | cons c cs ih =>
    intro h
    simp only [pathFreeL, Bool.and_eq_true] at h
    simp [allPathsCollapsedL, allPathsCollapsed_of_pathFree c h.1, ih h.2]

theorem fixSvgPaths_idem (n : Node) : fixSvgPaths (fixSvgPaths n) = fixSvgPaths n := by
  refine nodeInd (fun n => fixSvgPaths (fixSvgPaths n) = fixSvgPaths n)
    (fun l => fixSvgPathsL (fixSvgPathsL l) = fixSvgPathsL l)
    ?_ ?_ ?_ ?_ ?_ ?_ n
  · intro t p cs ihl
    by_cases ht : (t == "path") = true
    · cases hd : lookupProp p "d" with
      | none => simp [fixSvgPaths, ht, hd]
      | some av =>
        cases av with
        | strs l => simp [fixSvgPaths, ht, hd]
        | str d =>
          by_cases hde : d = ""
          · simp [fixSvgPaths, ht, hd, hde]
          · have h1 : fixSvgPaths (.element t p cs) =
                .element t (setProp p "d" (.str (collapseWs d))) cs := by
              simp [fixSvgPaths, ht, hd, hde]
            rw [h1]
            have h2 : lookupProp (setProp p "d" (.str (collapseWs d))) "d" =
                some (.str (collapseWs d)) := lookupProp_setProp_self p "d" _
            have h3 : collapseWs d ≠ "" := collapseWs_ne_empty d hde
            simp [fixSvgPaths, ht, h2, h3, collapseWs_idem, setProp_setProp_self]
    · have htf : (t == "path") = false := by revert ht; cases t == "path" <;> simp
      simp [fixSvgPaths, htf, ihl]
  · intro v
    rfl
  · intro cs ihl
    simp [fixSvgPaths, ihl]
  · intro nm p cs ihl
    simp [fixSvgPaths, ihl]
  · rfl
  · intro c cs ihc ihl
    simp [fixSvgPathsL, ihc, ihl]

theorem fixSvgPaths_collapsed (n : Node) :
    noNestedPaths n = true → allPathsCollapsed (fixSvgPaths n) = true := by
  refine nodeInd (fun n => noNestedPaths n = true → allPathsCollapsed (fixSvgPaths n) = true)
    (fun l => noNestedPathsL l = true → allPathsCollapsedL (fixSvgPathsL l) = true)
    ?_ ?_ ?_ ?_ ?_ ?_ n
  · intro t p cs ihl h
    by_cases ht : (t == "path") = true
    · simp only [noNestedPaths, ht, if_pos rfl] at h
      have hcs : allPathsCollapsedL cs = true := allPathsCollapsedL_of_pathFreeL cs h
      cases hd : lookupProp p "d" with
      | none => simp [fixSvgPaths, allPathsCollapsed, ht, hd, hcs]
      | some av =>
        cases av with
        | strs l => simp [fixSvgPaths, allPathsCollapsed, ht, hd, hcs]
        | str d =>
          by_cases hde : d = ""
          · subst hde
            simp [fixSvgPaths, allPathsCollapsed, ht, hd, hcs, wsNormal]
          · have h1 : fixSvgPaths (.element t p cs) =
                .element t (setProp p "d" (.str (collapseWs d))) cs := by
              simp [fixSvgPaths, ht, hd, hde]
            rw [h1]
            have h2 : lookupProp (setProp p "d" (.str (collapseWs d))) "d" =
                some (.str (collapseWs d)) := lookupProp_setProp_self p "d" _
            have h4 : wsNormal (collapseWs d).data = true := wsNormal_collapseWsAux d.toList false
            simp [allPathsCollapsed, ht, h2, h4, hcs]
    · have htf : (t == "path") = false := by revert ht; cases t == "path" <;> simp
      simp only [noNestedPaths, htf, if_neg (by simp : ¬ (false = true))] at h
      simp [fixSvgPaths, allPathsCollapsed, htf, ihl h]
  · intro v _
    rfl
  · intro cs ihl h
    simp only [noNestedPaths] at h
    simp [fixSvgPaths, allPathsCollapsed, ihl h]
  · intro nm p cs ihl h
    simp only [noNestedPaths] at h
    simp [fixSvgPaths, allPathsCollapsed, ihl h]
  · intro _
    rfl
  · intro c cs ihc ihl h
    simp only [noNestedPathsL, Bool.and_eq_true] at h
    simp [fixSvgPathsL, allPathsCollapsedL, ihc h.1, ihl h.2]

/-- C7 counterexample: a `path` nested below another `path` is never visited
(the traversal returns a matched `path` without descending), so its `d`
attribute keeps its whitespace run — the claim's "for every path element" is
false on such a tree. -/
theorem fixSvgPaths_counterexample :
    allPathsCollapsed (fixSvgPaths
      (.root [.element "path" [("d", .str "a  b")]
        [.element "path" [("d", .str "x  y")] []]])) = false := by decide

/-- C7 (amended): for every `path` element not nested below another `path`,
all whitespace runs of its `d` attribute are collapsed to exactly one space
(first conjunct, under the no-nested-paths hypothesis); applying the pass
twice gives the same result as applying it once, on every tree (second
conjunct); and the concrete input `d="M10 10\n\n  L20   20"` yields
`d="M10 10 L20 20"` (third conjunct). -/
theorem fixSvgPaths_claim (t : Node) :
    (noNestedPaths t = true → allPathsCollapsed (fixSvgPaths t) = true) ∧
    fixSvgPaths (fixSvgPaths t) = fixSvgPaths t ∧
    fixSvgPaths (.root [.element "path" [("d", .str "M10 10\n\n  L20   20")] []]) =
      .root [.element "path" [("d", .str "M10 10 L20 20")] []] :=
  ⟨fixSvgPaths_collapsed t, fixSvgPaths_idem t, by decide⟩

def svgExample : Node :=
  .root [.element "path" [("d", .str "M10 10\n\n  L20   20")] []]

theorem fixSvgPaths_claim_witness :
    noNestedPaths svgExample = true ∧
    allPathsCollapsed (fixSvgPaths svgExample) = true :=
  ⟨by decide, (fixSvgPaths_claim svgExample).1 (by decide)⟩

/-! ### C6: `wrapLinksInSpans` -/

/-- An element with tag `span` whose `class` property is the string
`inner-link` — the wrapper shape created by the pass. -/
def isInnerLinkSpan : Node → Bool
  | .element t p _ =>
    t == "span" &&
      (match lookupProp p "class" with
       | some (.str s) => s == "inner-link"
       | _ => false)
  | _ => false

mutual

/-- No anchor element anywhere in the tree. -/
def anchorFree : Node → Bool
  | .element t _ cs => (t != "a") && anchorFreeL cs
  | .text _ => true
  | .root cs => anchorFreeL cs
  | .mdx _ _ cs => anchorFreeL cs

def anchorFreeL : List Node → Bool
  | [] => true
  | c :: cs => anchorFree c && anchorFreeL cs

end

mutual

/-- No anchor element is nested below another anchor element (the traversal
never descends into a matched anchor). -/
def noNestedAnchors : Node → Bool
  | .element t _ cs => if t == "a" then anchorFreeL cs else noNestedAnchorsL cs
  | .text _ => true
  | .root cs => noNestedAnchorsL cs
  | .mdx _ _ cs => noNestedAnchorsL cs

def noNestedAnchorsL : List Node → Bool
  | [] => true
  | c :: cs => noNestedAnchors c && noNestedAnchorsL cs

end

mutual

/-- Every anchor's immediate parent is an inner-link span; the flag carries
whether the current parent is such a span. -/
def anchorsWrapped : Node → Bool
  | .element t p cs => anchorsWrappedL (isInnerLinkSpan (.element t p cs)) cs
  | .text _ => true
  | .root cs => anchorsWrappedL false cs
  | .mdx _ _ cs => anchorsWrappedL false cs

def anchorsWrappedL : Bool → List Node → Bool
  | _, [] => true
  | pSpan, c :: cs =>
    ((!(isAnchorNode c)) || pSpan) && anchorsWrapped c && anchorsWrappedL pSpan cs

end

mutual

def countAnchors : Node → Nat
  | .element t _ cs => (if t == "a" then 1 else 0) + countAnchorsL cs
  | .text _ => 0
  | .root cs => countAnchorsL cs
  | .mdx _ _ cs => countAnchorsL cs

def countAnchorsL : List Node → Nat
  | [] => 0
  | c :: cs => countAnchors c + countAnchorsL cs

end

mutual

def countInnerSpans : Node → Nat
  | .element t p cs =>
    (if isInnerLinkSpan (.element t p cs) then 1 else 0) + countInnerSpansL cs
  | .text _ => 0
  | .root cs => countInnerSpansL cs
  | .mdx _ _ cs => countInnerSpansL cs

def countInnerSpansL : List Node → Nat
  | [] => 0
  | c :: cs => countInnerSpans c + countInnerSpansL cs

end

theorem isAnchorNode_wrap (c : Node) : isAnchorNode (wrapLinksInSpans c) = false := by
  cases c with
  | element t p cs =>
    by_cases ht : (t == "a") = true
    · simp [wrapLinksInSpans, ht, isAnchorNode]
    · have htf : (t == "a") = false := by revert ht; cases t == "a" <;> simp
      simp [wrapLinksInSpans, ht, isAnchorNode, htf]
  | text v => rfl
  | root cs => rfl
  | mdx nm p cs => rfl

theorem anchorsWrapped_of_anchorFree (n : Node) :
    anchorFree n = true → anchorsWrapped n = true := by
  refine nodeInd (fun n => anchorFree n = true → anchorsWrapped n = true)
    (fun l => anchorFreeL l = true → ∀ b, anchorsWrappedL b l = true)
    ?_ ?_ ?_ ?_ ?_ ?_ n
  · intro t p cs ihl h
    simp only [anchorFree, Bool.and_eq_true] at h
    simp [anchorsWrapped, ihl h.2]
  · intro v _
    rfl
  · intro cs ihl h
    simp only [anchorFree] at h
    simp [anchorsWrapped, ihl h]
  · intro nm p cs ihl h
    simp only [anchorFree] at h
    simp [anchorsWrapped, ihl h]
  · intro _ b
    rfl
  · intro c cs ihc ihl h
    simp only [anchorFreeL, Bool.and_eq_true] at h
    intro b
    have hna : isAnchorNode c = false := by
      cases c with
      | element t p cs2 =>
        have h1 := h.1
        simp only [anchorFree, Bool.and_eq_true] at h1
        have := h1.1
        rw [bne] at this
        revert this
        simp only [isAnchorNode]
        cases t == "a" <;> simp
      | text v => rfl
      | root cs2 => rfl
      | mdx nm p cs2 => rfl
    simp [anchorsWrappedL, hna, ihc h.1, ihl h.2 b]

theorem anchorFreeL_of_wrapped_anchor (l : List Node) :
    anchorFreeL l = true → ∀ b, anchorsWrappedL b l = true := by
  induction l with
  | nil => intro _ b; rfl
  | cons c cs ih =>
    intro h b
    simp only [anchorFreeL, Bool.and_eq_true] at h
    have hna : isAnchorNode c = false := by
      cases c with
      | element t p cs2 =>
        simp only [anchorFree, Bool.and_eq_true] at h
        have h1 := h.1.1
        rw [bne] at h1
        revert h1
        simp only [isAnchorNode]
        cases t == "a" <;> simp
      | text v => rfl
      | root cs2 => rfl
      | mdx nm p cs2 => rfl
    simp [anchorsWrappedL, hna, anchorsWrapped_of_anchorFree c h.1, ih h.2 b]

theorem countAnchors_eq_zero_of_anchorFree (n : Node) :
    anchorFree n = true → countAnchors n = 0 := by
  refine nodeInd (fun n => anchorFree n = true → countAnchors n = 0)
    (fun l => anchorFreeL l = true → countAnchorsL l = 0)
    ?_ ?_ ?_ ?_ ?_ ?_ n
  · intro t p cs ihl h
    simp only [anchorFree, Bool.and_eq_true] at h
    have ht : (t == "a") = false := by
      have h1 := h.1
      rw [bne] at h1
      revert h1
      cases t == "a" <;> simp
    simp [countAnchors, ht, ihl h.2]
  · intro v _
    rfl
  · intro cs ihl h
    simp only [anchorFree] at h
    simp [countAnchors, ihl h]
  · intro nm p cs ihl h
    simp only [anchorFree] at h
    simp [countAnchors, ihl h]
  · intro _
    rfl
  · intro c cs ihc ihl h
    simp only [anchorFreeL, Bool.and_eq_true] at h
    simp [countAnchorsL, ihc h.1, ihl h.2]

theorem countAnchorsL_eq_zero_of_anchorFreeL (l : List Node) :
    anchorFreeL l = true → countAnchorsL l = 0 := by
  induction l with
  | nil => intro _; rfl
  | cons c cs ih =>
    intro h
    simp only [anchorFreeL, Bool.and_eq_true] at h
    simp [countAnchorsL, countAnchors_eq_zero_of_anchorFree c h.1, ih h.2]

theorem wrapLinksInSpans_wraps (n : Node) :
    noNestedAnchors n = true → anchorsWrapped (wrapLinksInSpans n) = true := by
  refine nodeInd (fun n => noNestedAnchors n = true → anchorsWrapped (wrapLinksInSpans n) = true)
    (fun l => noNestedAnchorsL l = true →
      ∀ b, anchorsWrappedL b (wrapLinksInSpansL l) = true)
    ?_ ?_ ?_ ?_ ?_ ?_ n
  · intro t p cs ihl h
    by_cases ht : (t == "a") = true
    · simp only [noNestedAnchors] at h
      rw [if_pos ht] at h
      have h1 : wrapLinksInSpans (.element t p cs) =
          .element "span" [("class", .str "inner-link")] [.element t p cs] := by
        simp [wrapLinksInSpans, ht]
      rw [h1]
      have h2 : anchorsWrapped (.element t p cs) = true := by
        have h3 := anchorFreeL_of_wrapped_anchor cs h
        simp only [anchorsWrapped]
        exact h3 _
      show anchorsWrappedL true [Node.element t p cs] = true
      simp [anchorsWrappedL, h2]
    · have htf : (t == "a") = false := by revert ht; cases t == "a" <;> simp
      simp only [noNestedAnchors, htf, if_neg (by simp : ¬ (false = true))] at h
      have h1 : wrapLinksInSpans (.element t p cs) =
          .element t p (wrapLinksInSpansL cs) := by
        simp [wrapLinksInSpans, htf]
      rw [h1]
      simp [anchorsWrapped, ihl h]
  · intro v _
    rfl
  · intro cs ihl h
    simp only [noNestedAnchors] at h
    simp [wrapLinksInSpans, anchorsWrapped, ihl h]
  · intro nm p cs ihl h
    simp only [noNestedAnchors] at h
    simp [wrapLinksInSpans, anchorsWrapped, ihl h]
  · intro _ b
    rfl
  · intro c cs ihc ihl h
    simp only [noNestedAnchorsL, Bool.and_eq_true] at h
    intro b
    simp [wrapLinksInSpansL, anchorsWrappedL, isAnchorNode_wrap c, ihc h.1, ihl h.2 b]

theorem wrapLinksInSpans_counts (n : Node) :
    noNestedAnchors n = true →
      countAnchors (wrapLinksInSpans n) = countAnchors n ∧
      countInnerSpans (wrapLinksInSpans n) = countInnerSpans n + countAnchors n := by
  refine nodeInd (fun n => noNestedAnchors n = true →
      countAnchors (wrapLinksInSpans n) = countAnchors n ∧
      countInnerSpans (wrapLinksInSpans n) = countInnerSpans n + countAnchors n)
    (fun l => noNestedAnchorsL l = true →
      countAnchorsL (wrapLinksInSpansL l) = countAnchorsL l ∧
      countInnerSpansL (wrapLinksInSpansL l) = countInnerSpansL l + countAnchorsL l)
    ?_ ?_ ?_ ?_ ?_ ?_ n
  · intro t p cs ihl h
    by_cases ht : (t == "a") = true
    · simp only [noNestedAnchors] at h
      rw [if_pos ht] at h
      have h1 : wrapLinksInSpans (.element t p cs) =
          .element "span" [("class", .str "inner-link")] [.element t p cs] := by
        simp [wrapLinksInSpans, ht]
      rw [h1]
      have hz : countAnchorsL cs = 0 := countAnchorsL_eq_zero_of_anchorFreeL cs h
      constructor
      · simp [countAnchors, countAnchorsL, ht]
      · simp [countInnerSpans, countInnerSpansL, countAnchors, ht, hz,
          isInnerLinkSpan, lookupProp]
        omega
    · have htf : (t == "a") = false := by revert ht; cases t == "a" <;> simp
      simp only [noNestedAnchors, htf, if_neg (by simp : ¬ (false = true))] at h
      have h1 : wrapLinksInSpans (.element t p cs) =
          .element t p (wrapLinksInSpansL cs) := by
        simp [wrapLinksInSpans, htf]
      rw [h1]
      have hspan : ∀ xs ys : List Node,
          isInnerLinkSpan (.element t p xs) = isInnerLinkSpan (.element t p ys) := by
        intro xs ys
        rfl
      constructor
      · simp [countAnchors, (ihl h).1]
      · simp only [countInnerSpans, hspan (wrapLinksInSpansL cs) cs, (ihl h).2, countAnchors, htf]
        simp
        omega
  · intro v _
    exact ⟨rfl, rfl⟩
  · intro cs ihl h
    simp only [noNestedAnchors] at h
    refine ⟨?_, ?_⟩
    · simp [wrapLinksInSpans, countAnchors, (ihl h).1]
    · simp [wrapLinksInSpans, countInnerSpans, countAnchors, (ihl h).2]
  · intro nm p cs ihl h
    simp only [noNestedAnchors] at h
    refine ⟨?_, ?_⟩
    · simp [wrapLinksInSpans, countAnchors, (ihl h).1]
    · simp [wrapLinksInSpans, countInnerSpans, countAnchors, (ihl h).2]
  · intro _
    exact ⟨rfl, rfl⟩
  · intro c cs ihc ihl h
    simp only [noNestedAnchorsL, Bool.and_eq_true] at h
    refine ⟨?_, ?_⟩
    · simp [wrapLinksInSpansL, countAnchorsL, (ihc h.1).1, (ihl h.2).1]
    · simp [wrapLinksInSpansL, countInnerSpansL, countAnchorsL,
        (ihc h.1).2, (ihl h.2).2]
      omega

/-- C6 counterexample: on a tree with an anchor nested inside another anchor
the traversal wraps only the outer anchor (it never descends into a matched
anchor), so the inner anchor's immediate parent is an anchor, not a
`span.inner-link` — the claim's "for every anchor element present in the
input tree" is false there. -/
theorem wrapLinksInSpans_counterexample :
    anchorsWrapped (wrapLinksInSpans
      (.root [.element "a" [] [.element "a" [] []]])) = false := by decide

/-- C6 (amended): on every tree with no anchor nested inside another anchor,
after one run of the pass every anchor's immediate parent is an element with
tag `span` and class `inner-link`; the anchors themselves are preserved and
exactly one new inner-link span is created per anchor (each original anchor
is wrapped exactly once, and the created wrapper is never re-matched within
the same run). -/
theorem wrapLinksInSpans_claim (t : Node) (h : noNestedAnchors t = true) :
    anchorsWrapped (wrapLinksInSpans t) = true ∧
    countAnchors (wrapLinksInSpans t) = countAnchors t ∧
    countInnerSpans (wrapLinksInSpans t) = countInnerSpans t + countAnchors t :=
  ⟨wrapLinksInSpans_wraps t h, (wrapLinksInSpans_counts t h).1,
    (wrapLinksInSpans_counts t h).2⟩

def wrapExample : Node :=
  .root [.element "p" [] [.element "a" [("href", .str "u")] [.text "u"]]]

theorem wrapLinksInSpans_claim_witness :
    noNestedAnchors wrapExample = true ∧
    anchorsWrapped (wrapLinksInSpans wrapExample) = true ∧
    countAnchors (wrapLinksInSpans wrapExample) = countAnchors wrapExample ∧
    countInnerSpans (wrapLinksInSpans wrapExample) =
      countInnerSpans wrapExample + countAnchors wrapExample :=
  ⟨by decide, wrapLinksInSpans_claim wrapExample (by decide)⟩

/-! ### C5/C10: `addLeadToFirstParagraph`

"Modifies exactly one node and leaves all others byte-identical" is stated
through the pre-order list of node labels (a node's own data, without its
children) together with the pre-order list of children counts (the tree
shape): the pass preserves the shape and rewrites exactly the label at the
position of the first pre-order paragraph. -/

/-- The label of a node: its own data without the children. -/
inductive Label where
  | element : String → List (String × AttrVal) → Label
  | text : String → Label
  | root : Label
  | mdx : String → List (String × AttrVal) → Label
deriving DecidableEq, Repr

mutual

/-- Pre-order list of labels. -/
def preLabels : Node → List Label
  | .element t p cs => .element t p :: preLabelsL cs
  | .text v => [.text v]
  | .root cs => .root :: preLabelsL cs
  | .mdx nm p cs => .mdx nm p :: preLabelsL cs

def preLabelsL : List Node → List Label
  | [] => []
  | c :: cs => preLabels c ++ preLabelsL cs

end

mutual

/-- Pre-order list of children counts (the shape of the tree). -/
def arities : Node → List Nat
  | .element _ _ cs => cs.length :: aritiesL cs
  | .text _ => [0]
  | .root cs => cs.length :: aritiesL cs
  | .mdx _ _ cs => cs.length :: aritiesL cs

def aritiesL : List Node → List Nat
  | [] => []
  | c :: cs => arities c ++ aritiesL cs

end

def isPLabel : Label → Bool
  | .element t _ => t == "p"
  | _ => false

/-- What the pass does to the marked paragraph's label:
`{...node.properties, class: 'lead'}`. -/
def leadLabel : Label → Label
  | .element t p => .element t (setProp p "class" (.str "lead"))
  | other => other

def LeadNotFound (n : Node) : Prop :=
  leadRun n = (false, n) ∧ ∀ lab ∈ preLabels n, isPLabel lab = false

def LeadFound (n : Node) : Prop :=
  (leadRun n).1 = true ∧ arities (leadRun n).2 = arities n ∧
    ∃ A lab B, preLabels n = A ++ lab :: B ∧ (∀ x ∈ A, isPLabel x = false) ∧
      isPLabel lab = true ∧ preLabels (leadRun n).2 = A ++ leadLabel lab :: B

def LeadNotFoundL (l : List Node) : Prop :=
  leadRunL l = (false, l) ∧ ∀ lab ∈ preLabelsL l, isPLabel lab = false

def LeadFoundL (l : List Node) : Prop :=
  (leadRunL l).1 = true ∧ (leadRunL l).2.length = l.length ∧
    aritiesL (leadRunL l).2 = aritiesL l ∧
    ∃ A lab B, preLabelsL l = A ++ lab :: B ∧ (∀ x ∈ A, isPLabel x = false) ∧
      isPLabel lab = true ∧ preLabelsL (leadRunL l).2 = A ++ leadLabel lab :: B

theorem leadRun_cases (n : Node) : LeadNotFound n ∨ LeadFound n := by
  refine nodeInd (fun n => LeadNotFound n ∨ LeadFound n)
    (fun l => LeadNotFoundL l ∨ LeadFoundL l)
    ?_ ?_ ?_ ?_ ?_ ?_ n
  · intro t p cs ihl
    by_cases ht : (t == "p") = true
    · right
      have h1 : leadRun (.element t p cs) =
          (true, .element t (setProp p "class" (.str "lead")) cs) := by
        simp [leadRun, ht]
      refine ⟨by rw [h1], by rw [h1]; rfl,
        [], .element t p, preLabelsL cs, rfl, by simp, by simp [isPLabel, ht], ?_⟩
      rw [h1]
      rfl
    · have htf : (t == "p") = false := by revert ht; cases t == "p" <;> simp
      have h1 : leadRun (.element t p cs) =
          ((leadRunL cs).1, .element t p (leadRunL cs).2) := by
        simp [leadRun, htf]
      rcases ihl with ⟨hrun, hlab⟩ | ⟨hf, hlen, har, A, lab, B, hsplit, hA, hlabp, hres⟩
      · left
        constructor
        · rw [h1, hrun]
        · intro x hx
          simp only [preLabels, List.mem_cons] at hx
          rcases hx with rfl | hx
          · simp [isPLabel, htf]
          · exact hlab x hx
      · right
        refine ⟨by rw [h1]; exact hf, ?_,
          .element t p :: A, lab, B, by simp [preLabels, hsplit], ?_,
          hlabp, ?_⟩
        · rw [h1]
          simp only [arities, hlen, har]
        · intro x hx
          rcases List.mem_cons.mp hx with rfl | hx
          · simp [isPLabel, htf]
          · exact hA x hx
        · rw [h1]
          simp only [preLabels, hres]
          rfl
  · intro v
    left
    exact ⟨rfl, by simp [preLabels, isPLabel]⟩
  · intro cs ihl
    have h1 : leadRun (.root cs) = ((leadRunL cs).1, .root (leadRunL cs).2) := by
      simp [leadRun]
    rcases ihl with ⟨hrun, hlab⟩ | ⟨hf, hlen, har, A, lab, B, hsplit, hA, hlabp, hres⟩
    · left
      constructor
      · rw [h1, hrun]
      · intro x hx
        simp only [preLabels, List.mem_cons] at hx
        rcases hx with rfl | hx
        · rfl
        · exact hlab x hx
    · right
      refine ⟨by rw [h1]; exact hf, ?_,
        Label.root :: A, lab, B, by simp [preLabels, hsplit], ?_, hlabp, ?_⟩
      · rw [h1]
        simp only [arities, hlen, har]
      · intro x hx
        rcases List.mem_cons.mp hx with rfl | hx
        · rfl
        · exact hA x hx
      · rw [h1]
        simp only [preLabels, hres]
        rfl
  · intro nm p cs ihl
    have h1 : leadRun (.mdx nm p cs) = ((leadRunL cs).1, .mdx nm p (leadRunL cs).2) := by
      simp [leadRun]
    rcases ihl with ⟨hrun, hlab⟩ | ⟨hf, hlen, har, A, lab, B, hsplit, hA, hlabp, hres⟩
    · left
      constructor
      · rw [h1, hrun]
      · intro x hx
        simp only [preLabels, List.mem_cons] at hx
        rcases hx with rfl | hx
        · rfl
        · exact hlab x hx
    · right
      refine ⟨by rw [h1]; exact hf, ?_,
        Label.mdx nm p :: A, lab, B, by simp [preLabels, hsplit], ?_, hlabp, ?_⟩
      · rw [h1]
        simp only [arities, hlen, har]
      · intro x hx
        rcases List.mem_cons.mp hx with rfl | hx
        · rfl
        · exact hA x hx
      · rw [h1]
        simp only [preLabels, hres]
        rfl
  · left
    exact ⟨rfl, by simp [preLabelsL]⟩
  · intro c cs ihc ihl
    rcases ihc with ⟨hcrun, hclab⟩ | ⟨hcf, hcar, A, lab, B, hcsplit, hcA, hclabp, hcres⟩
    · have h1 : leadRunL (c :: cs) = ((leadRunL cs).1, c :: (leadRunL cs).2) := by
        simp [leadRunL, hcrun]
      rcases ihl with ⟨hrun, hlab⟩ | ⟨hf, hlen, har, A, lab, B, hsplit, hA, hlabp, hres⟩
      · left
        constructor
        · rw [h1, hrun]
        · intro x hx
          simp only [preLabelsL, List.mem_append] at hx
          rcases hx with hx | hx
          · exact hclab x hx
          · exact hlab x hx
      · right
        refine ⟨by rw [h1]; exact hf, by rw [h1]; simp [hlen], ?_,
          preLabels c ++ A, lab, B, ?_, ?_, hlabp, ?_⟩
        · rw [h1]
          simp only [aritiesL, har]
        · simp [preLabelsL, hsplit]
        · intro x hx
          rcases List.mem_append.mp hx with hx | hx
          · exact hclab x hx
          · exact hA x hx
        · rw [h1]
          simp only [preLabelsL, hres]
          simp
    · have h1 : leadRunL (c :: cs) = (true, (leadRun c).2 :: cs) := by
        cases hr : leadRun c with
        | mk f nd =>
          rw [hr] at hcf
          simp only at hcf
          simp [leadRunL, hr, hcf]
      right
      refine ⟨by rw [h1], by rw [h1]; simp,
        ?_, A, lab, B ++ preLabelsL cs, by simp [preLabelsL, hcsplit], hcA, hclabp, ?_⟩
      · rw [h1]
        simp only [aritiesL, hcar]
      · rw [h1]
        simp only [preLabelsL]
        rw [hcres]
        simp

theorem first_split_unique {α : Type} (q : α → Bool) :
    ∀ (A : List α) (a : α) (B A' : List α) (a' : α) (B' : List α),
      A ++ a :: B = A' ++ a' :: B' →
      (∀ x ∈ A, q x = false) → (∀ x ∈ A', q x = false) →
      q a = true → q a' = true → A = A' ∧ a = a' ∧ B = B' := by
  intro A
  induction A with
  | nil =>
    intro a B A' a' B' heq hA hA' ha ha'
    cases A' with
    | nil =>
      simp only [List.nil_append, List.cons.injEq] at heq
      exact ⟨rfl, heq.1, heq.2⟩
    | cons y ys =>
      simp only [List.nil_append, List.cons_append, List.cons.injEq] at heq
      have hy : q y = false := hA' y (by simp)
      rw [← heq.1] at hy
      rw [ha] at hy
      exact absurd hy (by simp)
  | cons x xs ih =>
    intro a B A' a' B' heq hA hA' ha ha'
    cases A' with
    | nil =>
      simp only [List.cons_append, List.nil_append, List.cons.injEq] at heq
      have hx : q x = false := hA x (by simp)
      rw [heq.1, ha'] at hx
      exact absurd hx (by simp)
    | cons y ys =>
      simp only [List.cons_append, List.cons.injEq] at heq
      obtain ⟨h1, h2, h3⟩ := ih a B ys a' B' heq.2 (fun z hz => hA z (by simp [hz]))
        (fun z hz => hA' z (by simp [hz])) ha ha'
      exact ⟨by rw [heq.1, h1], h2, h3⟩

theorem addLead_labels (t : Node) :
    arities (addLeadToFirstParagraph t) = arities t ∧
    ((∀ lab ∈ preLabels t, isPLabel lab = false) → addLeadToFirstParagraph t = t) ∧
    (∀ A lab B, preLabels t = A ++ lab :: B → (∀ x ∈ A, isPLabel x = false) →
      isPLabel lab = true →
      preLabels (addLeadToFirstParagraph t) = A ++ leadLabel lab :: B) := by
  rcases leadRun_cases t with ⟨hrun, hlab⟩ | ⟨hf, har, A0, lab0, B0, hsplit, hA0, hp0, hres⟩
  · refine ⟨?_, fun _ => ?_, ?_⟩
    · unfold addLeadToFirstParagraph
      rw [hrun]
    · unfold addLeadToFirstParagraph
      rw [hrun]
    · intro A lab B hsp hA hp
      have hfalse : isPLabel lab = false := hlab lab (by rw [hsp]; simp)
      rw [hp] at hfalse
      exact absurd hfalse (by simp)
  · refine ⟨har, ?_, ?_⟩
    · intro hall
      have hfalse := hall lab0 (by rw [hsplit]; simp)
      rw [hp0] at hfalse
      exact absurd hfalse (by simp)
    · intro A lab B hsp hA hp
      obtain ⟨e1, e2, e3⟩ := first_split_unique isPLabel A0 lab0 B0 A lab B
        (hsplit.symm.trans hsp) hA0 hA hp0 hp
      unfold addLeadToFirstParagraph
      rw [hres, e1, e2, e3]

/-- C5: lead marking preserves the tree shape (pre-order children counts) and
modifies exactly one node: on a tree with zero paragraphs the whole tree is
returned unchanged, and otherwise exactly the label at the first pre-order
paragraph position gains the `class: 'lead'` attribute while every other
node's label stays byte-identical. -/
theorem addLeadToFirstParagraph_claim (t : Node) :
    arities (addLeadToFirstParagraph t) = arities t ∧
    ((∀ lab ∈ preLabels t, isPLabel lab = false) → addLeadToFirstParagraph t = t) ∧
    (∀ A lab B, preLabels t = A ++ lab :: B → (∀ x ∈ A, isPLabel x = false) →
      isPLabel lab = true →
      preLabels (addLeadToFirstParagraph t) = A ++ leadLabel lab :: B) :=
  addLead_labels t

def leadEx : Node :=
  .root [.element "div" [] [.text "t"], .element "p" [("id", .str "x")] [.text "u"]]

theorem addLeadToFirstParagraph_claim_witness :
    arities (addLeadToFirstParagraph leadEx) = arities leadEx ∧
    preLabels (addLeadToFirstParagraph leadEx) =
      [Label.root, Label.element "div" [], Label.text "t"] ++
        leadLabel (Label.element "p" [("id", AttrVal.str "x")]) :: [Label.text "u"] :=
  ⟨(addLeadToFirstParagraph_claim leadEx).1,
   (addLeadToFirstParagraph_claim leadEx).2.2 _ _ _ (by decide) (by decide) (by decide)⟩

/-- C10: lead marking overwrites rather than appends: when the tree's first
pre-order paragraph already carries a class attribute, after the pass that
paragraph's class attribute equals exactly the string `"lead"` (the
pre-existing value is discarded). -/
theorem addLead_overwrites_class (t : Node) (A : List Label) (tg : String)
    (pr : Props) (B : List Label)
    (hsplit : preLabels t = A ++ Label.element tg pr :: B)
    (hA : ∀ x ∈ A, isPLabel x = false)
    (hp : isPLabel (Label.element tg pr) = true)
    (_hcls : (lookupProp pr "class").isSome = true) :
    preLabels (addLeadToFirstParagraph t) =
      A ++ Label.element tg (setProp pr "class" (.str "lead")) :: B ∧
    lookupProp (setProp pr "class" (.str "lead")) "class" = some (.str "lead") := by
  constructor
  · have hmain := (addLead_labels t).2.2 A (Label.element tg pr) B hsplit hA hp
    simpa [leadLabel] using hmain
  · exact lookupProp_setProp_self pr "class" _

def c10Ex : Node := .root [.element "p" [("class", .str "old")] [.text "w"]]

theorem addLead_overwrites_class_witness :
    preLabels (addLeadToFirstParagraph c10Ex) =
      [Label.root] ++ Label.element "p"
        (setProp [("class", AttrVal.str "old")] "class" (.str "lead")) ::
          [Label.text "w"] ∧
    lookupProp (setProp [("class", AttrVal.str "old")] "class" (.str "lead")) "class" =
      some (.str "lead") :=
  addLead_overwrites_class c10Ex [Label.root] "p" [("class", AttrVal.str "old")]
    [Label.text "w"] (by decide) (by decide) (by decide) (by decide)

/-! ### C1: `normalizeHeaders` -/

theorem minFold_from_some :
    ∀ (l : List Int) (a : Int),
      ∃ m, l.foldl minStep (some a) = some m ∧ m ≤ a ∧ (m = a ∨ m ∈ l) ∧
        ∀ x ∈ l, m ≤ x := by
  intro l
  induction l with
  | nil =>
    intro a
    exact ⟨a, rfl, le_refl a, Or.inl rfl, by simp⟩
  | cons v rest ih =>
    intro a
    by_cases hv : v < a
    · have hstep : minStep (some a) v = some v := by simp [minStep, hv]
      obtain ⟨m, hm, hma, hmem, hall⟩ := ih v
      refine ⟨m, ?_, ?_, ?_, ?_⟩
      · simpa [List.foldl_cons, hstep] using hm
      · omega
      · rcases hmem with rfl | hmem
        · exact Or.inr (by simp)
        · exact Or.inr (by simp [hmem])
      · intro x hx
        rcases List.mem_cons.mp hx with rfl | hx
        · exact hma
        · exact hall x hx
    · have hstep : minStep (some a) v = some a := by simp [minStep, hv]
      obtain ⟨m, hm, hma, hmem, hall⟩ := ih a
      refine ⟨m, ?_, hma, ?_, ?_⟩
      · simpa [List.foldl_cons, hstep] using hm
      · rcases hmem with rfl | hmem
        · exact Or.inl rfl
        · exact Or.inr (by simp [hmem])
      · intro x hx
        rcases List.mem_cons.mp hx with rfl | hx
        · omega
        · exact hall x hx

theorem minFold_spec (l : List Int) (h : l ≠ []) :
    ∃ m, minFold l = some m ∧ m ∈ l ∧ ∀ x ∈ l, m ≤ x := by
  cases l with
  | nil => exact absurd rfl h
  | cons a rest =>
    obtain ⟨m, hm, hma, hmem, hall⟩ := minFold_from_some rest a
    refine ⟨m, ?_, ?_, ?_⟩
    · simpa [minFold, List.foldl_cons, minStep] using hm
    · rcases hmem with rfl | hmem
      · simp
      · simp [hmem]
    · intro x hx
      rcases List.mem_cons.mp hx with rfl | hx
      · exact hma
      · exact hall x hx

theorem headingLevel?_shift (m l : Int) (hml : m ≤ l) (hl6 : l ≤ 6) (hm1 : 1 ≤ m) :
    headingLevel? ("h" ++ toString (2 - m + l)) = some (2 - m + l) := by
  have h2 : 2 ≤ 2 - m + l := by omega
  have h7 : 2 - m + l ≤ 7 := by omega
  set k := 2 - m + l with hk
  clear_value k
  interval_cases k <;> decide

theorem headingLevels_rewrite (m : Int) (hm1 : 1 ≤ m) (n : Node) :
    (∀ l ∈ headingLevels n, m ≤ l ∧ l ≤ 6) →
      headingLevels (rewriteHeadings m n) =
        (headingLevels n).map (fun l => 2 - m + l) := by
  refine nodeInd
    (fun n => (∀ l ∈ headingLevels n, m ≤ l ∧ l ≤ 6) →
      headingLevels (rewriteHeadings m n) =
        (headingLevels n).map (fun l => 2 - m + l))
    (fun cs => (∀ l ∈ headingLevelsL cs, m ≤ l ∧ l ≤ 6) →
      headingLevelsL (rewriteHeadingsL m cs) =
        (headingLevelsL cs).map (fun l => 2 - m + l))
    ?_ ?_ ?_ ?_ ?_ ?_ n
  · intro t p cs ihl h
    cases hd : headingLevel? t with
    | none =>
      have h1 : rewriteHeadings m (.element t p cs) =
          .element t p (rewriteHeadingsL m cs) := by
        simp [rewriteHeadings, hd]
      have hcs : ∀ l ∈ headingLevelsL cs, m ≤ l ∧ l ≤ 6 := by
        intro l hl
        exact h l (by simp [headingLevels, hd, hl])
      rw [h1]
      simp [headingLevels, hd, ihl hcs]
    | some lv =>
      have hlv : m ≤ lv ∧ lv ≤ 6 := h lv (by simp [headingLevels, hd])
      have h1 : rewriteHeadings m (.element t p cs) =
          .element ("h" ++ toString (2 - m + lv)) p (rewriteHeadingsL m cs) := by
        simp [rewriteHeadings, hd]
      have hcs : ∀ l ∈ headingLevelsL cs, m ≤ l ∧ l ≤ 6 := by
        intro l hl
        exact h l (by simp [headingLevels, hd, hl])
      rw [h1]
      simp [headingLevels, hd, headingLevel?_shift m lv hlv.1 hlv.2 hm1, ihl hcs]
  · intro v _
    rfl
  · intro cs ihl h
    simp only [headingLevels] at h ⊢
    simp [rewriteHeadings, headingLevels, ihl h]
  · intro nm p cs ihl h
    simp only [headingLevels] at h ⊢
    simp [rewriteHeadings, headingLevels, ihl h]
  · intro _
    rfl
  · intro c cs ihc ihl h
    have hc : ∀ l ∈ headingLevels c, m ≤ l ∧ l ≤ 6 := by
      intro l hl
      exact h l (by simp [headingLevelsL, hl])
    have hcs : ∀ l ∈ headingLevelsL cs, m ≤ l ∧ l ≤ 6 := by
      intro l hl
      exact h l (by simp [headingLevelsL, hl])
    simp [rewriteHeadingsL, headingLevelsL, ihc hc, ihl hcs]

/-- C1: on a tree with no recognized heading the tree is returned unchanged
(first conjunct); on a tree with at least one heading, all of whose headings
lie in h1..h6, every heading level is remapped by the constant shift
`newLevel = 2 - minLevel + oldLevel` (so all pairwise differences between
heading levels are preserved), and the minimum heading level present
afterwards is 2 (second conjunct). -/
theorem normalizeHeaders_claim (t : Node) :
    (headingLevels t = [] → normalizeHeaders t = t) ∧
    ((headingLevels t ≠ [] ∧ ∀ l ∈ headingLevels t, 1 ≤ l ∧ l ≤ 6) →
      ∃ m, minFold (headingLevels t) = some m ∧ (∀ l ∈ headingLevels t, m ≤ l) ∧
        headingLevels (normalizeHeaders t) =
          (headingLevels t).map (fun l => 2 - m + l) ∧
        minFold (headingLevels (normalizeHeaders t)) = some 2) := by
  constructor
  · intro h
    unfold normalizeHeaders
    rw [h]
    rfl
  · rintro ⟨hne, hbound⟩
    obtain ⟨m, hm, hmem, hleast⟩ := minFold_spec (headingLevels t) hne
    have hm1 : 1 ≤ m := (hbound m hmem).1
    have hmap : headingLevels (normalizeHeaders t) =
        (headingLevels t).map (fun l => 2 - m + l) := by
      unfold normalizeHeaders
      rw [hm]
      exact headingLevels_rewrite m hm1 t (fun l hl => ⟨hleast l hl, (hbound l hl).2⟩)
    refine ⟨m, hm, hleast, hmap, ?_⟩
    have hne2 : headingLevels (normalizeHeaders t) ≠ [] := by
      rw [hmap]
      simpa using hne
    obtain ⟨m', hm', hmem', hleast'⟩ := minFold_spec _ hne2
    have h2mem : (2 : Int) ∈ headingLevels (normalizeHeaders t) := by
      rw [hmap]
      refine List.mem_map.mpr ⟨m, hmem, ?_⟩
      show 2 - m + m = 2
      omega
    have hle : m' ≤ 2 := hleast' 2 h2mem
    have hge : 2 ≤ m' := by
      rw [hmap] at hmem'
      obtain ⟨x, hx, hxe⟩ := List.mem_map.mp hmem'
      have hmx := hleast x hx
      have hxe2 : 2 - m + x = m' := hxe
      omega
    have hm2 : m' = 2 := le_antisymm hle hge
    rw [← hm2]
    exact hm'

def hEx : Node :=
  .root [.element "h3" [] [.text "a"], .element "h3" [] [.text "b"],
         .element "h5" [] [.text "c"]]

theorem normalizeHeaders_claim_witness :
    normalizeHeaders (.root [.element "hr" [] []]) = .root [.element "hr" [] []] ∧
    headingLevels (normalizeHeaders hEx) =
      (headingLevels hEx).map (fun l => 2 - 3 + l) ∧
    minFold (headingLevels (normalizeHeaders hEx)) = some 2 := by
  refine ⟨(normalizeHeaders_claim (.root [.element "hr" [] []])).1 (by decide), ?_⟩
  obtain ⟨m, hm, hleast, hmap, hmin⟩ :=
    (normalizeHeaders_claim hEx).2 ⟨by decide, by decide⟩
  have hv : minFold (headingLevels hEx) = some 3 := by decide
  rw [hv] at hm
  injection hm with hm
  subst hm
  exact ⟨hmap, hmin⟩

def c8para : Node :=
  .element "p" [] [.element "a" [("href", .str "https://e")] [.text "https://e"]]

theorem replaceFreeLink_null_metadata_witness :
    ∃ cs', replaceFreeLinkWithOEmbed (fun _ => none) (fun _ => Except.error "e")
        (fun _ _ => "1.69") (.root [c8para]) = .root cs' ∧
      cs'.length = [c8para].length ∧ cs'.get? 0 = some c8para :=
  replaceFreeLink_null_metadata (fun _ => none) (fun _ => Except.error "e")
    (fun _ _ => "1.69") [c8para] 0 c8para "https://e" (by decide) (by decide) rfl

end Md
